import Mathlib

/-!
# Verification of the custom differentiable linear layer

Shallow embedding of the `LinearFunction` autograd function and the `Linear`
module from the notebook
`how_to_make_own_layers_activation_functions_or_losses_for_a_neural_network.ipynb`.

Tensors are modelled as rectangular lists of rationals (`Mat`); operations
that can raise a runtime error in the source (shape mismatches in `mm`,
broadcasting in `expand_as`, attribute lookup) return `Option`.
-/

/-- A 2-D tensor, stored as a list of rows. -/
abbrev Mat := List (List ℚ)

/-- `M` is an `r × c` matrix: `r` rows, every row of length `c`. -/
def IsMatrix (M : Mat) (r c : ℕ) : Prop :=
  M.length = r ∧ ∀ row ∈ M, row.length = c

instance (M : Mat) (r c : ℕ) : Decidable (IsMatrix M r c) := by
  unfold IsMatrix; infer_instance

/-- Entry `(i, j)` of a matrix, with `0` out of range (used only in range). -/
def entry (M : Mat) (i j : ℕ) : ℚ :=
  (M.getD i []).getD j 0

/-- Dot product of two rows (truncating, like `zipWith`). -/
def dot (v w : List ℚ) : ℚ :=
  (List.zipWith (fun a b => a * b) v w).sum

/-- `Tensor.t()`: transpose of a (rectangular) 2-D tensor.  The column count
is read off the first row, as the shape metadata of a rectangular tensor. -/
def tr (M : Mat) : Mat :=
  (List.range (M.headD []).length).map (fun j => M.map (fun row => row.getD j 0))

/-- `A.mm(B)`: matrix product.  PyTorch raises a `RuntimeError` when the
inner dimensions disagree; here that is `none`. -/
def mm (A B : Mat) : Option Mat :=
  if A.all (fun row => row.length == B.length) then
    some (A.map (fun row => (tr B).map (fun col => dot row col)))
  else
    none

/-- `output += bias.unsqueeze(0).expand_as(output)`: add the bias vector to
every row.  `expand_as` raises unless every row of `output` has exactly the
bias's length. -/
def addBias (output : Mat) (b : List ℚ) : Option Mat :=
  if output.all (fun row => row.length == b.length) then
    some (output.map (fun row => List.zipWith (fun a c => a + c) row b))
  else
    none

/-- `LinearFunction.forward(ctx, input, weight, bias)`:
`output = input.mm(weight.t())`, then `output += bias...` when `bias` is
present.  (The `ctx.save_for_backward` side effect is modelled separately by
`forwardStep`.) -/
def forward (input weight : Mat) (bias : Option (List ℚ)) : Option Mat :=
  match mm input (tr weight) with
  | none => none
  | some output =>
    match bias with
    | none => some output
    | some b => addBias output b

/-- `grad_output.sum(0)`: column sums (sum over the batch dimension) of a
2-D tensor, a 1-D tensor whose length is the column count. -/
def sum0 (M : Mat) : List ℚ :=
  (tr M).map (fun col => col.sum)

/-- A 1-D or 0-D tensor: the possible results of `sum(0).squeeze(0)`. -/
inductive PyVec where
  | vec : List ℚ → PyVec
  | scal : ℚ → PyVec
deriving DecidableEq, Repr

/-- `.squeeze(0)` on a 1-D tensor of shape `(k)`: removes the dimension
exactly when `k = 1`, producing a 0-D scalar tensor; otherwise a no-op. -/
def squeeze0 (v : List ℚ) : PyVec :=
  match v with
  | [x] => PyVec.scal x
  | _ => PyVec.vec v

/-- The triple returned by `LinearFunction.backward`:
`(grad_input, grad_weight, grad_bias)`, each possibly `None`. -/
structure BackwardOut where
  grad_input : Option Mat
  grad_weight : Option Mat
  grad_bias : Option PyVec
deriving DecidableEq, Repr

/-- `LinearFunction.backward(ctx, grad_output)` with saved tensors
`(input, weight, bias)` and `ctx.needs_input_grad = needs`:

* `grad_input = grad_output.mm(weight)` when `needs[0]`;
* `grad_weight = grad_output.t().mm(input)` when `needs[1]`;
* `grad_bias = grad_output.sum(0).squeeze(0)` when `bias is not None and needs[2]`;

each gradient is initialised to `None` and left alone when not computed.
A shape error inside either `mm` aborts the whole call (`none`). -/
def backward (input weight : Mat) (bias : Option (List ℚ))
    (needs : Bool × Bool × Bool) (grad_output : Mat) : Option BackwardOut :=
  let giStep : Option (Option Mat) :=
    if needs.1 then Option.map some (mm grad_output weight) else some none
  let gwStep : Option (Option Mat) :=
    if needs.2.1 then Option.map some (mm (tr grad_output) input) else some none
  match giStep, gwStep with
  | some gi, some gw =>
    some { grad_input := gi
           grad_weight := gw
           grad_bias :=
             if bias.isSome && needs.2.2 then
               some (squeeze0 (sum0 grad_output))
             else
               none }
  | _, _ => none

/-- The bias contribution to entry `j` of an output row: `b[j]` when the
bias is present, `0` when absent. -/
def biasTerm (b : Option (List ℚ)) (j : ℕ) : ℚ :=
  match b with
  | none => 0
  | some v => v.getD j 0

/-! ## The `Linear` module -/

/-- The state of a constructed `Linear` module: the two feature counts and
the parameters `weight` and `bias` (`bias` is `None` when absent). -/
structure LinearModule where
  input_features : ℕ
  output_features : ℕ
  weight : Mat
  bias : Option (List ℚ)
deriving Repr

/-- The weight tensor after `self.weight.data.uniform_(-0.1, 0.1)`:
an `output_features × input_features` matrix whose entry `(i, j)` is the
sample `wsample i j` drawn by `uniform_`. -/
def initWeight (output_features input_features : ℕ) (wsample : ℕ → ℕ → ℚ) : Mat :=
  (List.range output_features).map (fun i =>
    (List.range input_features).map (fun j => wsample i j))

/-- The bias tensor after `self.bias.data.uniform_(-0.1, 0.1)`:
a length-`output_features` vector of the samples drawn by `uniform_`. -/
def initBias (output_features : ℕ) (bsample : ℕ → ℚ) : List ℚ :=
  (List.range output_features).map bsample

/-- `Linear.__init__(self, input_features, output_features, bias=True)`.
`wsample`/`bsample` are the values the two `uniform_(-0.1, 0.1)` calls draw.

The source guards the bias initialisation with `if bias is not None:`, where
`bias` is the *Boolean argument* — a Python `bool` is never `None`, so the
branch always executes.  When the flag is `False`, `self.bias` was registered
as `None`, and `self.bias.data` raises `AttributeError`; construction fails
(`none`). -/
def Linear_init (input_features output_features : ℕ) (bias : Bool)
    (wsample : ℕ → ℕ → ℚ) (bsample : ℕ → ℚ) : Option LinearModule :=
  let biasParam : Option (List ℚ) :=
    if bias then some ((List.range output_features).map (fun _ => 0)) else none
  let weight := initWeight output_features input_features wsample
  match biasParam with
  | some _ =>
    some { input_features := input_features
           output_features := output_features
           weight := weight
           bias := some (initBias output_features bsample) }
  | none => none

/-- `Linear.forward(self, input)`: delegates to
`LinearFunction.apply(input, self.weight, self.bias)`. -/
def Linear_forward (m : LinearModule) (input : Mat) : Option Mat :=
  forward input m.weight m.bias

/-- The attribute names appearing in `Linear.__init__` and
`Linear.extra_repr`.  `__init__` assigns `input_features`,
`output_features`, `weight` and `bias`; `extra_repr` reads `in_features`
and `out_features`. -/
inductive AttrName where
  | input_features
  | output_features
  | weight
  | bias
  | in_features
  | out_features
deriving DecidableEq, Repr

/-- Python attribute lookup on a `Linear` instance, for the integer-valued
attributes.  Only the names `__init__` assigns resolve; any other name
raises `AttributeError` (`none`). -/
def Linear_getattr_nat (m : LinearModule) (name : AttrName) : Option ℕ :=
  match name with
  | AttrName.input_features => some m.input_features
  | AttrName.output_features => some m.output_features
  | _ => none

/-- `Linear.extra_repr(self)`: formats the triple
(`self.in_features`, `self.out_features`, `self.bias is not None`).  The
two integer lookups go through `Linear_getattr_nat`; if either raises
`AttributeError`, so does the call (`none`).  Only the data that would be
interpolated into the string is modelled, not the rendered text. -/
def Linear_extra_repr (m : LinearModule) : Option (ℕ × ℕ × Bool) :=
  match Linear_getattr_nat m AttrName.in_features,
      Linear_getattr_nat m AttrName.out_features with
  | some a, some b => some (a, b, m.bias.isSome)
  | _, _ => none

/-! ## State-passing model of the forward/backward pair

The only mutation in `LinearFunction` is `ctx.save_for_backward` (and the
in-place `output += ...`, which targets the tensor freshly produced by `mm`,
not an argument).  `CallState` carries the three argument tensors and the
autograd context; the two steps below are the source's `forward`/`backward`
as state transformers. -/

structure CallState where
  X : Mat
  W : Mat
  b : Option (List ℚ)
  ctx : Option (Mat × Mat × Option (List ℚ))
deriving Repr

/-- `LinearFunction.forward` as a step on `CallState`:
`ctx.save_for_backward(input, weight, bias)` stores the three tensors, then
the output is computed; no assignment targets `X`, `W` or `b`. -/
def forwardStep (s : CallState) : Option (CallState × Mat) :=
  match forward s.X s.W s.b with
  | none => none
  | some Y => some ({ s with ctx := some (s.X, s.W, s.b) }, Y)

/-- `LinearFunction.backward` as a step on `CallState`: unpacks
`ctx.saved_tensors` (failing when no forward call saved them) and computes
the gradients; the state is not written at all. -/
def backwardStep (s : CallState) (needs : Bool × Bool × Bool)
    (grad_output : Mat) : Option (CallState × BackwardOut) :=
  match s.ctx with
  | none => none
  | some (input, weight, bias) =>
    match backward input weight bias needs grad_output with
    | none => none
    | some out => some (s, out)

/-! ## List-level lemmas -/

lemma getD_map_of_lt {α β : Type} (f : α → β) (l : List α) (i : ℕ)
    (h : i < l.length) (d : β) (d' : α) :
    (l.map f).getD i d = f (l.getD i d') := by
  induction l generalizing i with
  | nil => simp at h
  | cons a t ih =>
    cases i with
    | zero => rfl
    | succ n =>
      have hn : n < t.length := by simpa using h
      simpa using ih n hn

lemma getD_range_of_lt (n i : ℕ) (h : i < n) (d : ℕ) :
    (List.range n).getD i d = i := by
  rw [List.getD_eq_getElem?_getD, List.getElem?_range h, Option.getD_some]

lemma dot_eq_sum (v w : List ℚ) (h : v.length = w.length) :
    dot v w = ∑ l ∈ Finset.range v.length, v.getD l 0 * w.getD l 0 := by
  induction v generalizing w with
  | nil => simp [dot]
  | cons a t ih =>
    cases w with
    | nil => simp at h
    | cons b u =>
      have h' : t.length = u.length := by simpa using h
      have hd : dot (a :: t) (b :: u) = a * b + dot t u := by
        simp [dot]
      rw [hd, List.length_cons, Finset.sum_range_succ', ih u h']
      simp [add_comm]

lemma list_sum_eq_sum_getD (v : List ℚ) :
    v.sum = ∑ i ∈ Finset.range v.length, v.getD i 0 := by
  induction v with
  | nil => simp
  | cons a t ih =>
    rw [List.sum_cons, List.length_cons, Finset.sum_range_succ', ih]
    simp [add_comm]

lemma zipWith_add_getD (v w : List ℚ) (j : ℕ) (hv : j < v.length)
    (hw : j < w.length) :
    (List.zipWith (fun a c => a + c) v w).getD j 0 = v.getD j 0 + w.getD j 0 := by
  induction v generalizing w j with
  | nil => simp at hv
  | cons a t ih =>
    cases w with
    | nil => simp at hw
    | cons b u =>
      cases j with
      | zero => rfl
      | succ n =>
        have hv' : n < t.length := by simpa using hv
        have hw' : n < u.length := by simpa using hw
        simpa using ih u n hv' hw'

/-! ## Shape and entry lemmas for `tr` and `mm` -/

lemma headD_length {M : Mat} {r c : ℕ} (hM : IsMatrix M r c) (hr : 0 < r) :
    (M.headD []).length = c := by
  cases M with
  | nil => rw [← hM.1] at hr; simp at hr
  | cons row t => exact hM.2 row (by simp)

lemma tr_isMatrix {M : Mat} {r c : ℕ} (hM : IsMatrix M r c) (hr : 0 < r) :
    IsMatrix (tr M) c r := by
  constructor
  · rw [tr, List.length_map, List.length_range, headD_length hM hr]
  · intro row hrow
    rw [tr] at hrow
    rcases List.mem_map.mp hrow with ⟨j, _, rfl⟩
    rw [List.length_map, hM.1]

lemma tr_entry {M : Mat} {r c : ℕ} (hM : IsMatrix M r c) (hr : 0 < r)
    (j i : ℕ) (hj : j < c) (hi : i < r) :
    entry (tr M) j i = entry M i j := by
  have hlen : (List.range (M.headD []).length).length = c := by
    rw [List.length_range, headD_length hM hr]
  rw [entry, tr, getD_map_of_lt _ _ j (by rw [hlen]; exact hj) _ 0,
    getD_range_of_lt _ j (by rw [← headD_length hM hr] at hj; exact hj),
    getD_map_of_lt _ _ i (by rw [hM.1]; exact hi) _ [], entry]

lemma mm_spec {A B : Mat} {p q r : ℕ} (hA : IsMatrix A p q) (hB : IsMatrix B q r)
    (hq : 0 < q) :
    ∃ C, mm A B = some C ∧ IsMatrix C p r ∧
      ∀ i j, i < p → j < r →
        entry C i j = ∑ l ∈ Finset.range q, entry A i l * entry B l j := by
  have htrB : IsMatrix (tr B) r q := tr_isMatrix hB hq
  have hguard : A.all (fun row => row.length == B.length) = true := by
    rw [List.all_eq_true]
    intro row hrow
    rw [beq_iff_eq, hA.2 row hrow, hB.1]
  refine ⟨A.map (fun row => (tr B).map (fun col => dot row col)),
    by rw [mm, if_pos hguard], ⟨by rw [List.length_map, hA.1], ?_⟩, ?_⟩
  · intro row hrow
    rcases List.mem_map.mp hrow with ⟨rowA, _, rfl⟩
    rw [List.length_map, htrB.1]
  · intro i j hi hj
    have hiA : i < A.length := by rw [hA.1]; exact hi
    have hrowA : A.getD i [] ∈ A := by
      rw [List.getD_eq_getElem?_getD, List.getElem?_eq_getElem hiA, Option.getD_some]
      exact List.getElem_mem hiA
    have hlenA : (A.getD i []).length = q := hA.2 _ hrowA
    have hjtr : j < (tr B).length := by rw [htrB.1]; exact hj
    rw [entry, getD_map_of_lt _ _ i hiA _ [],
      getD_map_of_lt _ _ j hjtr _ []]
    have hcol : (tr B).getD j [] = B.map (fun row => row.getD j 0) := by
      rw [tr, getD_map_of_lt _ _ j (by simpa [tr] using hjtr) _ 0,
        getD_range_of_lt _ j (by rw [← headD_length hB hq] at hj; exact hj)]
    have hlencol : ((tr B).getD j []).length = q := htrB.2 _ (by
      rw [List.getD_eq_getElem?_getD, List.getElem?_eq_getElem hjtr, Option.getD_some]
      exact List.getElem_mem hjtr)
    rw [dot_eq_sum _ _ (by rw [hlenA, hlencol]), hlenA]
    refine Finset.sum_congr rfl (fun l hl => ?_)
    have hlq : l < q := Finset.mem_range.mp hl
    rw [hcol, getD_map_of_lt _ _ l (by rw [hB.1]; exact hlq) _ []]
    rfl

/-! ## Characterisation of `backward` -/

lemma backward_eq_some (input weight : Mat) (bias : Option (List ℚ))
    (n1 n2 n3 : Bool) (gOut : Mat)
    (h1 : n1 = true → (mm gOut weight).isSome = true)
    (h2 : n2 = true → (mm (tr gOut) input).isSome = true) :
    backward input weight bias (n1, n2, n3) gOut =
      some { grad_input := if n1 then mm gOut weight else none
             grad_weight := if n2 then mm (tr gOut) input else none
             grad_bias :=
               if bias.isSome && n3 then some (squeeze0 (sum0 gOut)) else none } := by
  cases n1 with
  | false =>
    cases n2 with
    | false => rfl
    | true =>
      rcases Option.isSome_iff_exists.mp (h2 rfl) with ⟨gw, hgw⟩
      simp [backward, hgw]
  | true =>
    rcases Option.isSome_iff_exists.mp (h1 rfl) with ⟨gi, hgi⟩
    cases n2 with
    | false => simp [backward, hgi]
    | true =>
      rcases Option.isSome_iff_exists.mp (h2 rfl) with ⟨gw, hgw⟩
      simp [backward, hgi, hgw]

lemma backward_spec {input weight : Mat} {bias : Option (List ℚ)}
    {n1 n2 n3 : Bool} {gOut : Mat} {out : BackwardOut}
    (h : backward input weight bias (n1, n2, n3) gOut = some out) :
    out.grad_input = (if n1 then mm gOut weight else none) ∧
      out.grad_weight = (if n2 then mm (tr gOut) input else none) ∧
      out.grad_bias =
        (if bias.isSome && n3 then some (squeeze0 (sum0 gOut)) else none) := by
  cases n1 <;> cases n2 <;>
    [skip;
     cases hgw : mm (tr gOut) input;
     cases hgi : mm gOut weight;
     (cases hgi : mm gOut weight <;> cases hgw : mm (tr gOut) input)] <;>
    simp_all [backward] <;> rcases h with ⟨rfl, rfl, rfl⟩ <;> simp

lemma getD_mem {α : Type} (l : List α) (i : ℕ) (d : α) (h : i < l.length) :
    l.getD i d ∈ l := by
  rw [List.getD_eq_getElem?_getD, List.getElem?_eq_getElem h, Option.getD_some]
  exact List.getElem_mem h

/-! ## Claim theorems -/

/-- C1: for every input `X` of shape `(m, n)`, weight `W` of shape `(k, n)`
and bias `b` of shape `(k)` or absent, `forward` returns `Y = X · Wᵗ`, with
`b` added broadcast over the rows when present, and `Y` has shape `(m, k)`. -/
theorem C1_forward_affine (X W : Mat) (b : Option (List ℚ)) (m n k : ℕ)
    (hX : IsMatrix X m n) (hW : IsMatrix W k n) (hn : 0 < n) (hk : 0 < k)
    (hb : ∀ v, b = some v → v.length = k) :
    ∃ Y, forward X W b = some Y ∧ IsMatrix Y m k ∧
      ∀ i j, i < m → j < k →
        entry Y i j =
          (∑ l ∈ Finset.range n, entry X i l * entry W j l) + biasTerm b j := by
  have htrW : IsMatrix (tr W) n k := tr_isMatrix hW hk
  obtain ⟨C, hmm, hC, hent⟩ := mm_spec hX htrW hn
  have hentW : ∀ i j, i < m → j < k →
      entry C i j = ∑ l ∈ Finset.range n, entry X i l * entry W j l := by
    intro i j hi hj
    rw [hent i j hi hj]
    refine Finset.sum_congr rfl (fun l hl => ?_)
    rw [tr_entry hW hk l j (Finset.mem_range.mp hl) hj]
  cases b with
  | none =>
    refine ⟨C, ?_, hC, ?_⟩
    · simp only [forward, hmm]
    · intro i j hi hj
      rw [hentW i j hi hj, biasTerm, add_zero]
  | some bv =>
    have hbv : bv.length = k := hb bv rfl
    have hguard : C.all (fun row => row.length == bv.length) = true := by
      rw [List.all_eq_true]
      intro row hrow
      rw [beq_iff_eq, hC.2 row hrow, hbv]
    refine ⟨C.map (fun row => List.zipWith (fun a c => a + c) row bv), ?_, ⟨?_, ?_⟩, ?_⟩
    · simp only [forward, hmm, addBias]
      rw [if_pos hguard]
    · rw [List.length_map, hC.1]
    · intro row hrow
      rcases List.mem_map.mp hrow with ⟨rowC, hrowC, rfl⟩
      rw [List.length_zipWith, hC.2 rowC hrowC, hbv, min_self]
    · intro i j hi hj
      have hiC : i < C.length := by rw [hC.1]; exact hi
      have hrowlen : (C.getD i []).length = k := hC.2 _ (getD_mem C i [] hiC)
      rw [entry, getD_map_of_lt _ _ i hiC _ [],
        zipWith_add_getD _ _ j (by rw [hrowlen]; exact hj) (by rw [hbv]; exact hj),
        ← entry, hentW i j hi hj, biasTerm]

/-- C1 witness: the theorem instantiated at `X = [[2]]`, `W = [[3]]`,
`b = [1]`. -/
theorem C1_forward_affine_witness :
    ∃ Y, forward [[2]] [[3]] (some [1]) = some Y ∧ IsMatrix Y 1 1 ∧
      ∀ i j, i < 1 → j < 1 →
        entry Y i j =
          (∑ l ∈ Finset.range 1, entry [[2]] i l * entry [[3]] j l) +
            biasTerm (some [1]) j :=
  C1_forward_affine [[2]] [[3]] (some [1]) 1 1 1 (by decide) (by decide)
    (by decide) (by decide) (fun v hv => by cases hv; rfl)

/-- C2: for retained `X` of shape `(m, n)`, `W` of shape `(k, n)` and
upstream gradient `dY` of shape `(m, k)`, `backward` with the input and
weight gradients requested returns `dX = dY · W` of shape `(m, n)` and
`dW = dYᵗ · X` of shape `(k, n)`. -/
theorem C2_backward_gradients (X W : Mat) (bias : Option (List ℚ)) (dY : Mat)
    (m n k : ℕ) (nb : Bool)
    (hX : IsMatrix X m n) (hW : IsMatrix W k n) (hdY : IsMatrix dY m k)
    (hm : 0 < m) (hk : 0 < k) :
    ∃ out dX dW, backward X W bias (true, true, nb) dY = some out ∧
      out.grad_input = some dX ∧ IsMatrix dX m n ∧
      (∀ i j, i < m → j < n →
        entry dX i j = ∑ l ∈ Finset.range k, entry dY i l * entry W l j) ∧
      out.grad_weight = some dW ∧ IsMatrix dW k n ∧
      ∀ a c, a < k → c < n →
        entry dW a c = ∑ i ∈ Finset.range m, entry dY i a * entry X i c := by
  obtain ⟨dX, hmm1, hdX, hent1⟩ := mm_spec hdY hW hk
  have htrdY : IsMatrix (tr dY) k m := tr_isMatrix hdY hm
  obtain ⟨dW, hmm2, hdW, hent2⟩ := mm_spec htrdY hX hm
  refine ⟨_, dX, dW,
    backward_eq_some X W bias true true nb dY
      (fun _ => by rw [hmm1]; rfl) (fun _ => by rw [hmm2]; rfl),
    by simp [hmm1], hdX, hent1, by simp [hmm2], hdW, ?_⟩
  intro a c ha hc
  rw [hent2 a c ha hc]
  refine Finset.sum_congr rfl (fun i hi => ?_)
  rw [tr_entry hdY hm a i ha (Finset.mem_range.mp hi)]

/-- C2 witness: the theorem instantiated at `X = [[1]]`, `W = [[2]]`,
`dY = [[3]]`, no bias. -/
theorem C2_backward_gradients_witness :
    ∃ out dX dW, backward [[1]] [[2]] none (true, true, false) [[3]] = some out ∧
      out.grad_input = some dX ∧ IsMatrix dX 1 1 ∧
      (∀ i j, i < 1 → j < 1 →
        entry dX i j = ∑ l ∈ Finset.range 1, entry [[3]] i l * entry [[2]] l j) ∧
      out.grad_weight = some dW ∧ IsMatrix dW 1 1 ∧
      ∀ a c, a < 1 → c < 1 →
        entry dW a c = ∑ i ∈ Finset.range 1, entry [[3]] i a * entry [[1]] i c :=
  C2_backward_gradients [[1]] [[2]] none [[3]] 1 1 1 false (by decide) (by decide)
    (by decide) (by decide) (by decide)

lemma sum0_spec {M : Mat} {m k : ℕ} (hM : IsMatrix M m k) (hm : 0 < m) :
    (sum0 M).length = k ∧
      ∀ j, j < k → (sum0 M).getD j 0 = ∑ i ∈ Finset.range m, entry M i j := by
  have htrM : IsMatrix (tr M) k m := tr_isMatrix hM hm
  constructor
  · rw [sum0, List.length_map, htrM.1]
  · intro j hj
    have hjtr : j < (tr M).length := by rw [htrM.1]; exact hj
    rw [sum0, getD_map_of_lt _ _ j hjtr _ []]
    have hcol : (tr M).getD j [] = M.map (fun row => row.getD j 0) := by
      rw [tr, getD_map_of_lt _ _ j (by simpa [tr] using hjtr) _ 0,
        getD_range_of_lt _ j (by rw [headD_length hM hm]; exact hj)]
    rw [hcol, list_sum_eq_sum_getD, List.length_map, hM.1]
    refine Finset.sum_congr rfl (fun i hi => ?_)
    rw [getD_map_of_lt _ _ i (by rw [hM.1]; exact Finset.mem_range.mp hi) _ []]
    rfl

/-- C3 (amended): with the bias present and its gradient requested,
`backward` returns `db = dY.sum(0).squeeze(0)`: the column-sum of `dY` over
the batch dimension, of shape `(k)` when `k ≠ 1`, but squeezed to a
0-dimensional scalar when `k = 1`; `db` is absent when the bias is absent. -/
theorem C3_amended_bias_grad (dY : Mat) (m k : ℕ) (hdY : IsMatrix dY m k)
    (hm : 0 < m) (input weight : Mat) (b : List ℚ) (n1 n2 : Bool)
    (out : BackwardOut)
    (h : backward input weight (some b) (n1, n2, true) dY = some out) :
    out.grad_bias = some (squeeze0 (sum0 dY)) ∧
      (sum0 dY).length = k ∧
      (∀ j, j < k → (sum0 dY).getD j 0 = ∑ i ∈ Finset.range m, entry dY i j) ∧
      (k ≠ 1 → squeeze0 (sum0 dY) = PyVec.vec (sum0 dY)) ∧
      (k = 1 → squeeze0 (sum0 dY) = PyVec.scal ((sum0 dY).getD 0 0)) ∧
      ∀ out', backward input weight none (n1, n2, true) dY = some out' →
        out'.grad_bias = none := by
  obtain ⟨hlen, hgetD⟩ := sum0_spec hdY hm
  refine ⟨?_, hlen, hgetD, ?_, ?_, ?_⟩
  · have := (backward_spec h).2.2
    simpa using this
  · intro hk1
    cases hv : sum0 dY with
    | nil => rfl
    | cons x t =>
      cases t with
      | nil => rw [hv] at hlen; simp at hlen; exact absurd hlen.symm hk1
      | cons y u => rfl
  · intro hk1
    rw [hk1] at hlen
    cases hv : sum0 dY with
    | nil => rw [hv] at hlen; simp at hlen
    | cons x t =>
      cases t with
      | nil => rfl
      | cons y u => rw [hv] at hlen; simp at hlen
  · intro out' h'
    have := (backward_spec h').2.2
    simpa using this

/-- C3 witness: `dY = [[1, 2], [3, 4]]` (`k = 2`), bias present, only the
bias gradient requested. -/
theorem C3_amended_bias_grad_witness :
    (⟨none, none, some (squeeze0 (sum0 [[1, 2], [3, 4]]))⟩ : BackwardOut).grad_bias =
      some (squeeze0 (sum0 [[1, 2], [3, 4]])) :=
  (C3_amended_bias_grad [[1, 2], [3, 4]] 2 2 (by decide) (by decide)
    [[1]] [[1]] [1, 2] false false _ rfl).1

/-- C3 counterexample: for `dY = [[2], [3]]` (shape `(2, 1)`) with the bias
present and requested, the code returns the 0-dimensional scalar `5`
(because of `squeeze(0)`), not the shape-`(1)` vector `[5]` the claim
requires. -/
theorem C3_counterexample :
    backward [[1, 0], [0, 1]] [[1, 1]] (some [0]) (true, true, true) [[2], [3]] =
      some { grad_input := some [[2, 2], [3, 3]], grad_weight := some [[2, 3]],
             grad_bias := some (PyVec.scal 5) } ∧
    PyVec.scal 5 ≠ PyVec.vec [5] := by
  constructor
  · norm_num [backward, mm, tr, dot, sum0, squeeze0, List.range_succ]
  · simp

/-- C4 (code bug): constructing the module with `use_bias = false` does not
succeed.  `__init__` registers `self.bias = None`, but the subsequent
`if bias is not None:` tests the Boolean flag (which is never `None`), so
`self.bias.data.uniform_(-0.1, 0.1)` runs on `None` and raises
`AttributeError` for every configuration. -/
theorem C4_no_bias_init_fails (input_features output_features : ℕ)
    (wsample : ℕ → ℕ → ℚ) (bsample : ℕ → ℚ) :
    Linear_init input_features output_features false wsample bsample = none :=
  rfl

/-- C5 counterexample: in the concrete scenario `W = [[2, 3]]`, `b = [1]`,
`X = [[1, 1]]`, `dY = [[1]]`, forward, `dX` and `dW` are as claimed, but
`db` is the 0-dimensional scalar `1` (squeezed), not the length-1 vector
`[1]` of shape `(output_features)`. -/
theorem C5_counterexample :
    forward [[1, 1]] [[2, 3]] (some [1]) = some [[6]] ∧
    backward [[1, 1]] [[2, 3]] (some [1]) (true, true, true) [[1]] =
      some { grad_input := some [[2, 3]], grad_weight := some [[1, 1]],
             grad_bias := some (PyVec.scal 1) } ∧
    PyVec.scal 1 ≠ PyVec.vec [1] := by
  refine ⟨?_, ?_, by simp⟩
  · norm_num [forward, mm, tr, dot, addBias, List.range_succ]
  · norm_num [backward, mm, tr, dot, sum0, squeeze0, List.range_succ]

/-- C5 (amended): the concrete scenario, with `db` as the code produces it:
the 0-dimensional scalar `1` rather than a length-1 vector. -/
theorem C5_amended_scenario :
    forward [[1, 1]] [[2, 3]] (some [1]) = some [[6]] ∧
    backward [[1, 1]] [[2, 3]] (some [1]) (true, true, true) [[1]] =
      some { grad_input := some [[2, 3]], grad_weight := some [[1, 1]],
             grad_bias := some (PyVec.scal 1) } := by
  constructor
  · norm_num [forward, mm, tr, dot, addBias, List.range_succ]
  · norm_num [backward, mm, tr, dot, sum0, squeeze0, List.range_succ]

/-- C6: when the input's column count differs from the weight's column
count (the configured `input_features`), `forward` fails with the
dimension-mismatch error from `mm` and returns no result. -/
theorem C6_dim_mismatch (X W : Mat) (b : Option (List ℚ)) (m c k n : ℕ)
    (hX : IsMatrix X m c) (hW : IsMatrix W k n) (hm : 0 < m) (hk : 0 < k)
    (hne : c ≠ n) :
    forward X W b = none := by
  have hlen : (tr W).length = n := (tr_isMatrix hW hk).1
  have hguard : ¬(X.all (fun row => row.length == (tr W).length) = true) := by
    rw [List.all_eq_true]
    intro hall
    cases X with
    | nil => rw [← hX.1] at hm; simp at hm
    | cons x t =>
      have hx := hall x (by simp)
      rw [beq_iff_eq, hX.2 x (by simp), hlen] at hx
      exact hne hx
  have hmmnone : mm X (tr W) = none := by rw [mm, if_neg hguard]
  simp only [forward, hmmnone]

/-- C6 witness: `input_features = 3` (a `1 × 3` weight) but `X` has 2
columns. -/
theorem C6_dim_mismatch_witness :
    forward [[1, 1]] [[1, 2, 3]] none = none :=
  C6_dim_mismatch [[1, 1]] [[1, 2, 3]] none 1 2 1 3 (by decide) (by decide)
    (by decide) (by decide) (by decide)

/-- C7: a gradient whose `needs_input_grad` flag is unset is reported as
`None` (absent, not zero-filled and not an error), and each requested
gradient has the same value regardless of which other gradients were
requested. -/
theorem C7_skipped_gradients (input weight : Mat) (bias : Option (List ℚ))
    (n1 n2 n3 n1' n2' n3' : Bool) (gOut : Mat) (out out' : BackwardOut)
    (h : backward input weight bias (n1, n2, n3) gOut = some out)
    (h' : backward input weight bias (n1', n2', n3') gOut = some out') :
    (n1 = false → out.grad_input = none) ∧
    (n2 = false → out.grad_weight = none) ∧
    (n3 = false → out.grad_bias = none) ∧
    (n1 = true → n1' = true → out.grad_input = out'.grad_input) ∧
    (n2 = true → n2' = true → out.grad_weight = out'.grad_weight) ∧
    (n3 = true → n3' = true → out.grad_bias = out'.grad_bias) := by
  obtain ⟨e1, e2, e3⟩ := backward_spec h
  obtain ⟨e1', e2', e3'⟩ := backward_spec h'
  refine ⟨fun ha => ?_, fun ha => ?_, fun ha => ?_,
    fun ha hb => ?_, fun ha hb => ?_, fun ha hb => ?_⟩ <;>
    subst ha <;> simp_all

/-- C7 witness: with only the bias gradient requested, the input and
weight gradients come back absent; requesting the bias gradient under a
different flag combination yields the same bias gradient. -/
theorem C7_skipped_gradients_witness :
    (⟨none, none, some (squeeze0 (sum0 [[4]]))⟩ : BackwardOut).grad_input = none :=
  (C7_skipped_gradients [[1]] [[2]] (some [3]) false false true false false true
    [[4]] ⟨none, none, some (squeeze0 (sum0 [[4]]))⟩
    ⟨none, none, some (squeeze0 (sum0 [[4]]))⟩ rfl rfl).1 rfl

/-- C8: when every sample the two `uniform_(-0.1, 0.1)` calls draw lies in
`[-0.1, 0.1]` (the contract of `uniform_`), every entry of the constructed
module's `weight` — and of its `bias` when present — lies in `[-0.1, 0.1]`. -/
theorem C8_param_range (inf outf : ℕ) (useBias : Bool)
    (wsample : ℕ → ℕ → ℚ) (bsample : ℕ → ℚ) (mod : LinearModule)
    (hws : ∀ i j, -(1/10) ≤ wsample i j ∧ wsample i j ≤ 1/10)
    (hbs : ∀ j, -(1/10) ≤ bsample j ∧ bsample j ≤ 1/10)
    (h : Linear_init inf outf useBias wsample bsample = some mod) :
    (∀ row ∈ mod.weight, ∀ x ∈ row, -(1/10) ≤ x ∧ x ≤ 1/10) ∧
      ∀ bv, mod.bias = some bv → ∀ x ∈ bv, -(1/10) ≤ x ∧ x ≤ 1/10 := by
  cases useBias with
  | false => simp [Linear_init] at h
  | true =>
    simp only [Linear_init, if_true, Option.some.injEq] at h
    subst h
    constructor
    · intro row hrow x hx
      rcases List.mem_map.mp hrow with ⟨i, _, rfl⟩
      rcases List.mem_map.mp hx with ⟨j, _, rfl⟩
      exact hws i j
    · intro bv hbv x hx
      rw [Option.some.injEq] at hbv
      subst hbv
      rcases List.mem_map.mp hx with ⟨j, _, rfl⟩
      exact hbs j

/-- C8 witness: the theorem at `input_features = output_features = 1` with
all samples equal to `1/20`, instantiated at the single weight entry. -/
theorem C8_param_range_witness :
    -(1/10 : ℚ) ≤ 1/20 ∧ (1/20 : ℚ) ≤ 1/10 :=
  (C8_param_range 1 1 true (fun _ _ => 1/20) (fun _ => 1/20) _
    (fun i j => by norm_num) (fun j => by norm_num) rfl).1 [1/20]
    (by norm_num [initWeight, List.range_succ]) (1/20) (by norm_num)

/-- C9: a forward/backward pair leaves the values of `X`, `W` and `b`
unchanged; the only side effect of `forward` is saving references to
`(X, W, b)` into the autograd context for the matching `backward`, and
`backward` writes nothing. -/
theorem C9_forward_backward_frame (s s' s'' : CallState) (Y : Mat)
    (needs : Bool × Bool × Bool) (gOut : Mat) (out : BackwardOut)
    (h1 : forwardStep s = some (s', Y))
    (h2 : backwardStep s' needs gOut = some (s'', out)) :
    s'.X = s.X ∧ s'.W = s.W ∧ s'.b = s.b ∧ s'.ctx = some (s.X, s.W, s.b) ∧
    s''.X = s.X ∧ s''.W = s.W ∧ s''.b = s.b := by
  unfold forwardStep at h1
  cases hf : forward s.X s.W s.b with
  | none => rw [hf] at h1; cases h1
  | some Y0 =>
    rw [hf] at h1
    rw [Option.some.injEq, Prod.mk.injEq] at h1
    obtain ⟨hs', _⟩ := h1
    subst hs'
    unfold backwardStep at h2
    cases hb : backward s.X s.W s.b needs gOut with
    | none => simp [hb] at h2
    | some out0 =>
      simp only [hb] at h2
      rw [Option.some.injEq, Prod.mk.injEq] at h2
      obtain ⟨hs'', _⟩ := h2
      subst hs''
      exact ⟨rfl, rfl, rfl, rfl, rfl, rfl, rfl⟩

/-- C9 witness: a concrete forward/backward pair on `X = [[1]]`,
`W = [[1]]`, no bias. -/
theorem C9_forward_backward_frame_witness :
    (CallState.mk [[1]] [[1]] none (some ([[1]], [[1]], none))).X = [[1]] ∧
    (CallState.mk [[1]] [[1]] none (some ([[1]], [[1]], none))).W = [[1]] ∧
    (CallState.mk [[1]] [[1]] none (some ([[1]], [[1]], none))).b = none ∧
    (CallState.mk [[1]] [[1]] none (some ([[1]], [[1]], none))).ctx =
      some ([[1]], [[1]], none) ∧
    (CallState.mk [[1]] [[1]] none (some ([[1]], [[1]], none))).X = [[1]] ∧
    (CallState.mk [[1]] [[1]] none (some ([[1]], [[1]], none))).W = [[1]] ∧
    (CallState.mk [[1]] [[1]] none (some ([[1]], [[1]], none))).b = none :=
  C9_forward_backward_frame (CallState.mk [[1]] [[1]] none none) _ _ [[1]]
    (false, false, false) [[1]] ⟨none, none, none⟩
    (by norm_num [forwardStep, forward, mm, tr, dot, List.range_succ])
    (by norm_num [backwardStep, backward])

/-- C10: `extra_repr` fails on every constructed module instance: it reads
`self.in_features` and `self.out_features`, but `__init__` stores the
feature counts only under `input_features` and `output_features`, so the
attribute lookups raise `AttributeError`. -/
theorem C10_extra_repr_raises (m : LinearModule) :
    Linear_getattr_nat m AttrName.in_features = none ∧
    Linear_getattr_nat m AttrName.out_features = none ∧
    Linear_extra_repr m = none :=
  ⟨rfl, rfl, rfl⟩
